import Mathlib

/-!
Verification of the docx translation pipeline (`translate.py`).

The development shallowly embeds the program:

* Python strings are `Str` (`List Char`); `str.split()`, `str.strip()` and
  `' '.join` are `splitW`, `strip` and `joinSpace` below.
* `xml.etree.ElementTree` elements are values of the inductive `Element`
  (a tag, an optional text payload, and an ordered list of children);
  `element.iter(tag)` in document order is `wtOptTexts` / `descPaths`.
* In-place mutation of a shared tree is modelled by child-index paths:
  `ElementTree` mutation never changes the shape of the tree (only `text`
  fields are assigned), so a path computed on the tree before a pass still
  addresses the same node afterwards, exactly as a Python reference does.
* The translation backend (`TranslationClient.translate` applied at a fixed
  target language) is an arbitrary function `backend : Str → Str`; its retry
  loop is modelled separately by `clientTranslate`, where one attempt's
  outcome `some s` means `translate_text` returned `s` and `none` means it
  raised.
-/

/-- Python strings, as character lists. -/
abbrev Str := List Char

/-- The ASCII whitespace characters recognised by Python's `str.split()` and
`str.strip()` (the source only ever meets ASCII whitespace). -/
def isSpace (c : Char) : Bool :=
  c = ' ' || c = '\t' || c = '\n' || c = '\r' || c = '\x0b' || c = '\x0c'

/-- Leading-whitespace removal, the first half of Python `str.strip()`. -/
def stripLeft (s : Str) : Str := s.dropWhile isSpace

/-- Trailing-whitespace removal, the second half of Python `str.strip()`. -/
def stripRight (s : Str) : Str := (s.reverse.dropWhile isSpace).reverse

/-- Python `str.strip()`. -/
def strip (s : Str) : Str := stripRight (stripLeft s)

/-- Worker for `splitW`; `acc` holds the reversed characters of the word
currently being scanned. -/
def splitWAux : Str → Str → List Str
  | [], acc => if acc = [] then [] else [acc.reverse]
  | c :: rest, acc =>
    if isSpace c then
      if acc = [] then splitWAux rest [] else acc.reverse :: splitWAux rest []
    else splitWAux rest (c :: acc)

/-- Python `str.split()` with no separator: maximal runs of non-whitespace
characters, in order; leading/trailing/repeated whitespace yields nothing. -/
def splitW (s : Str) : List Str := splitWAux s []

/-- Python `' '.join(parts)`. -/
def joinSpace : List Str → Str
  | [] => []
  | [s] => s
  | s :: rest => s ++ ' ' :: joinSpace rest

/-- The sentinel string `"error"` returned by `TranslationClient.translate`
when every attempt raised (`translate.py` line 117). -/
def errStr : Str := "error".toList

/-- Qualified tag of a `w:t` text leaf. -/
def wT : Str := "\x7bhttp://schemas.openxmlformats.org/wordprocessingml/2006/main\x7dt".toList

/-- Qualified tag of a `w:p` paragraph. -/
def wP : Str := "\x7bhttp://schemas.openxmlformats.org/wordprocessingml/2006/main\x7dp".toList

/-- Qualified tag of a `w:tbl` table. -/
def wTbl : Str := "\x7bhttp://schemas.openxmlformats.org/wordprocessingml/2006/main\x7dtbl".toList

/-- Qualified tag of a `w:tr` table row. -/
def wTr : Str := "\x7bhttp://schemas.openxmlformats.org/wordprocessingml/2006/main\x7dtr".toList

/-- Qualified tag of a `w:tc` table cell. -/
def wTc : Str := "\x7bhttp://schemas.openxmlformats.org/wordprocessingml/2006/main\x7dtc".toList

/-- The math-namespace brace prefix tested by `is_math_element`
(`'\x7b' + self.ns['m'] + '\x7d'`). -/
def mathPrefix : Str := "\x7bhttp://schemas.openxmlformats.org/officeDocument/2006/math\x7d".toList

/-- An `xml.etree.ElementTree` element: a qualified tag, an optional `.text`
payload, and the ordered list of child elements. -/
inductive Element where
  | mk (tag : Str) (text : Option Str) (children : List Element)

/-- Tag projection. -/
def Element.tag : Element → Str
  | .mk t _ _ => t

/-- Text projection. -/
def Element.text : Element → Option Str
  | .mk _ tx _ => tx

/-- Children projection. -/
def Element.children : Element → List Element
  | .mk _ _ ch => ch

mutual
/-- The `.text` fields of the `w:t` nodes of the subtree rooted at `e`
(the node itself included), in document order: this is
`[t.text for t in element.iter(w:t)]`. -/
def wtOptTexts : Element → List (Option Str)
  | .mk tag tx ch => (if tag = wT then [tx] else []) ++ wtOptTextsL ch

/-- List version of `wtOptTexts`. -/
def wtOptTextsL : List Element → List (Option Str)
  | [] => []
  | c :: cs => wtOptTexts c ++ wtOptTextsL cs
end

mutual
/-- Whether any node of the subtree (the node itself included) carries a tag
in the math namespace: `is_math_element` (`translate.py` line 137). -/
def hasMathTag : Element → Bool
  | .mk tag _ ch => mathPrefix.isPrefixOf tag || hasMathTagL ch

/-- List version of `hasMathTag`. -/
def hasMathTagL : List Element → Bool
  | [] => false
  | c :: cs => hasMathTag c || hasMathTagL cs
end

/-- `DocxTranslator.extract_text` (`translate.py` lines 139-156): empty for a
formula subtree, otherwise the stripped concatenation of the `w:t` texts
(a `None` text contributes nothing, like the `if t.text` guard). -/
def extractText (e : Element) : Str :=
  if hasMathTag e then []
  else strip ((wtOptTexts e).foldr (fun o acc => o.getD [] ++ acc) [])

mutual
/-- Assign the strings of `repl` to the `w:t` nodes of the subtree in document
order, threading the unconsumed suffix: this is the
`for i, t_element in enumerate(text_elements): t_element.text = ...` loop of
`update_text` with the precomputed per-leaf strings. -/
def setTexts : Element → List Str → Element × List Str
  | .mk tag tx ch, repl =>
    if tag = wT then
      match repl with
      | [] =>
        let p := setTextsL ch []
        (.mk tag tx p.1, p.2)
      | r :: rest =>
        let p := setTextsL ch rest
        (.mk tag (some r) p.1, p.2)
    else
      let p := setTextsL ch repl
      (.mk tag tx p.1, p.2)

/-- List version of `setTexts`. -/
def setTextsL : List Element → List Str → List Element × List Str
  | [], repl => ([], repl)
  | c :: cs, repl =>
    let p := setTexts c repl
    let q := setTextsL cs p.2
    (p.1 :: q.1, q.2)
end

mutual
/-- Set the `.text` of every `w:t` node of the subtree to the empty string:
the `for t in para.iter(w:t): t.text = ''` loop of `process_table`
(`translate.py` lines 213-214). -/
def clearTexts : Element → Element
  | .mk tag tx ch => .mk tag (if tag = wT then some [] else tx) (clearTextsL ch)

/-- List version of `clearTexts`. -/
def clearTextsL : List Element → List Element
  | [] => []
  | c :: cs => clearTexts c :: clearTextsL cs
end

/-- The per-leaf strings computed by the multi-leaf branch of `update_text`
(`translate.py` lines 176-186): `words_per_element = max(1, total // n)`,
leaf `i` gets `words[i*k : i*k+k]` (the last leaf `words[i*k:]`) joined by
single spaces, and the empty string once `i*k` reaches the word count. -/
def distributeWords (n : Nat) (translated : Str) : List Str :=
  let words := splitW translated
  let wpe := max 1 (words.length / n)
  (List.range n).map (fun i =>
    let start := i * wpe
    if start < words.length then
      if i < n - 1 then joinSpace ((words.drop start).take wpe)
      else joinSpace (words.drop start)
    else [])

/-- `DocxTranslator.update_text` (`translate.py` lines 158-186). -/
def updateText (e : Element) (translated : Str) : Element :=
  if strip translated = [] then e
  else
    let n := (wtOptTexts e).length
    if n = 0 then e
    else if n = 1 then (setTexts e [translated]).1
    else (setTexts e (distributeWords n translated)).1

/-- Read the node addressed by a child-index path. -/
def getAt : Element → List Nat → Option Element
  | e, [] => some e
  | e, i :: p =>
    match e.children[i]? with
    | none => none
    | some c => getAt c p

/-- Rewrite the node addressed by a child-index path (identity when the path
is dangling); this models in-place mutation through a Python reference. -/
def modifyAt : Element → List Nat → (Element → Element) → Element
  | e, [], f => f e
  | .mk tag tx ch, i :: p, f =>
    match ch[i]? with
    | none => .mk tag tx ch
    | some c => .mk tag tx (ch.set i (modifyAt c p f))

mutual
/-- Paths (child-index lists) of the strict descendants of a node whose tag
satisfies `pred`, in document order: `element.findall('.//tag')` as paths. -/
def descPaths (pred : Str → Bool) : Element → List (List Nat)
  | .mk _ _ ch => descPathsL pred 0 ch

/-- Paths of the matching nodes of a child forest starting at child index `i`,
each node listed before its own descendants. -/
def descPathsL (pred : Str → Bool) : Nat → List Element → List (List Nat)
  | _, [] => []
  | i, c :: cs =>
    ((if pred c.tag then [[]] else []) ++ descPaths pred c).map (i :: ·)
      ++ descPathsL pred (i + 1) cs
end

/-- One step of the paragraph loop of `translate_document` (`translate.py`
lines 242-246): extract the paragraph's text and, when it is non-empty,
submit it to the backend and redistribute the returned string.  The second
component accumulates the texts submitted to the backend. -/
def processParagraphAt (backend : Str → Str) (st : Element × List Str)
    (p : List Nat) : Element × List Str :=
  match getAt st.1 p with
  | none => st
  | some el =>
    let text := extractText el
    if strip text = [] then st
    else
      let tr := backend text
      (modifyAt st.1 p (fun e => updateText e tr), st.2 ++ [text])

/-- The paragraph pass of `translate_document`: `root.findall('.//w:p')`
followed by the per-paragraph step, returning the mutated tree and the list
of texts submitted to the backend. -/
def paragraphPass (backend : Str → Str) (root : Element) : Element × List Str :=
  (descPaths (· = wP) root).foldl (processParagraphAt backend) (root, [])

/-- The cell-text aggregation loop of `process_table` (`translate.py` lines
198-204): concatenate `text + ' '` for every paragraph of the cell whose
extracted text is non-empty, then strip. -/
def aggregateCellText (cell : Element) : Str :=
  strip ((descPaths (· = wP) cell).foldl (fun acc pp =>
    match getAt cell pp with
    | none => acc
    | some para =>
      let t := extractText para
      if strip t = [] then acc else acc ++ t ++ [' ']) [])

/-- One step of the cell loop of `process_table` (`translate.py` lines
197-218), acting on the current tree `st.1` at the cell addressed by
`cellPath`: aggregate the cell text, submit it when non-empty, and on a
non-empty non-sentinel reply rewrite the first paragraph with `update_text`
and clear the `w:t` leaves of every later paragraph.  The second component
accumulates the texts submitted to the backend. -/
def processCellAt (backend : Str → Str) (st : Element × List Str)
    (cellPath : List Nat) : Element × List Str :=
  match getAt st.1 cellPath with
  | none => st
  | some cell =>
    let cellText := aggregateCellText cell
    if cellText = [] then st
    else
      let tr := backend cellText
      if tr ≠ [] ∧ tr ≠ errStr then
        match descPaths (· = wP) cell with
        | [] => (st.1, st.2 ++ [cellText])
        | p0 :: rest =>
          let r1 := modifyAt st.1 (cellPath ++ p0) (fun e => updateText e tr)
          let r2 := rest.foldl (fun r pp => modifyAt r (cellPath ++ pp) clearTexts) r1
          (r2, st.2 ++ [cellText])
      else (st.1, st.2 ++ [cellText])

/-- `DocxTranslator.process_table` (`translate.py` lines 188-218): for every
row found by `table.findall('.//w:tr')` and every cell found by
`row.findall('.//w:tc')` (read from the current tree, as the live Python
references do), run the per-cell step.  Returns the mutated table and the
texts submitted to the backend. -/
def processTable (backend : Str → Str) (tbl : Element) : Element × List Str :=
  (descPaths (· = wTr) tbl).foldl (fun st rowPath =>
    match getAt st.1 rowPath with
    | none => st
    | some row =>
      ((descPaths (· = wTc) row).map (rowPath ++ ·)).foldl
        (processCellAt backend) st) (tbl, [])

/-- The table pass of `translate_document` (`translate.py` lines 249-250):
`root.findall('.//w:tbl')` and `process_table` on each, the later tables
read from the already-mutated tree. -/
def tablePass (backend : Str → Str) (root : Element) : Element × List Str :=
  (descPaths (· = wTbl) root).foldl (fun st tp =>
    match getAt st.1 tp with
    | none => st
    | some tbl =>
      let p := processTable backend tbl
      (modifyAt st.1 tp (fun _ => p.1), st.2 ++ p.2)) (root, [])

/-- The XML rewriting stage of `translate_document` (`translate.py` lines
241-250): the paragraph pass followed by the table pass, together with the
document-order list of all texts submitted to the backend. -/
def translateDocumentXml (backend : Str → Str) (root : Element) :
    Element × List Str :=
  let p := paragraphPass backend root
  let q := tablePass backend p.1
  (q.1, p.2 ++ q.2)

/-- The archive member rewritten by `translate_document`. -/
def docMemberName : Str := "word/document.xml".toList

/-- `DocxTranslator.translate_document` at the package level (`translate.py`
lines 228-259), for a package whose member file names are distinct: unpack
the members, parse the primary content member with the external `ET.parse`
(modelled by the argument `parse`; `none` models a raised parse or
missing-file error, which propagates), rewrite the tree, serialize it with
the external `tree.write` (argument `serialize`) and repack every extracted
file under its original name. -/
def translateDocument (parse : Str → Option Element) (serialize : Element → Str)
    (backend : Str → Str) (pkg : List (Str × Str)) : Option (List (Str × Str)) :=
  match pkg.find? (fun m => m.1 = docMemberName) with
  | none => none
  | some m =>
    match parse m.2 with
    | none => none
    | some root =>
      let newBytes := serialize (translateDocumentXml backend root).1
      some (pkg.map (fun q => if q.1 = docMemberName then (q.1, newBytes) else q))

/-- Test fixture: a `w:t` text leaf. -/
def mkT (s : String) : Element := .mk wT (some s.toList) []

/-- Test fixture: a `w:r` run. -/
def mkR (ts : List Element) : Element :=
  .mk "\x7bhttp://schemas.openxmlformats.org/wordprocessingml/2006/main\x7dr".toList none ts

/-- Test fixture: a `w:p` paragraph. -/
def mkP (rs : List Element) : Element := .mk wP none rs

/-- Test fixture: a `w:tc` table cell. -/
def mkTc (ps : List Element) : Element := .mk wTc none ps

/-- Test fixture: a `w:tr` table row. -/
def mkTr (cs : List Element) : Element := .mk wTr none cs

/-- Test fixture: a `w:tbl` table. -/
def mkTbl (rs : List Element) : Element := .mk wTbl none rs

/-- Test fixture: a `w:document` root holding a `w:body` with the given
block-level children. -/
def mkDoc (xs : List Element) : Element :=
  .mk "\x7bhttp://schemas.openxmlformats.org/wordprocessingml/2006/main\x7ddocument".toList none
    [.mk "\x7bhttp://schemas.openxmlformats.org/wordprocessingml/2006/main\x7dbody".toList none xs]

/-- Document for claim C1: a single non-table paragraph reading `Bonjour`. -/
def c1doc : Element := mkDoc [mkP [mkR [mkT "Bonjour"]]]

/-- Document for claim C2: one table whose single cell holds the document's
only paragraph, reading `Hi`; the backend returns its input unchanged. -/
def c2doc : Element := mkDoc [mkTbl [mkTr [mkTc [mkP [mkR [mkT "Hi"]]]]]]

/-- The formula-bearing paragraph of claim C3: a run with a `w:t` leaf
reading `x` next to an `m:oMath` child. -/
def c3fp : Element :=
  mkP [mkR [mkT "x"],
    .mk "\x7bhttp://schemas.openxmlformats.org/officeDocument/2006/math\x7doMath".toList none []]

/-- Document for claim C3: a table cell whose first paragraph is the formula
paragraph `c3fp` and whose second paragraph reads `Hello`. -/
def c3doc : Element := mkDoc [mkTbl [mkTr [mkTc [c3fp, mkP [mkR [mkT "Hello"]]]]]]

/-- The body of `TranslationClient.translate` (`translate.py` lines 109-117)
started at attempt index `i` with `fuel` loop iterations left
(`fuel = max_retries - i`).  `att j = some s` means attempt `j` of
`translate_text` returned `s`; `att j = none` means it raised, which the
`except` arm absorbs.  The result pairs the returned value (`none` is
Python's implicit `return None` when the loop is never entered) with the
number of attempts made. -/
def translateFrom (maxRetries : Nat) (att : Nat → Option Str) :
    Nat → Nat → Option Str × Nat
  | _, 0 => (none, 0)
  | i, fuel + 1 =>
    match att i with
    | some s => (some s, 1)
    | none =>
      if i + 1 = maxRetries then (some errStr, 1)
      else
        let p := translateFrom maxRetries att (i + 1) fuel
        (p.1, p.2 + 1)

/-- `TranslationClient.translate` (`translate.py` lines 109-117):
`for attempt in range(self.max_retries)` with the given per-attempt
outcomes. -/
def clientTranslate (maxRetries : Nat) (att : Nat → Option Str) :
    Option Str × Nat :=
  translateFrom maxRetries att 0 maxRetries

/-- The stages of `translate_document` guarded by its `try` block
(`translate.py` lines 233-259): unzip extraction, `ET.parse`, the two XML
passes, `tree.write`, and repacking. -/
inductive DocxStage where
  | unzipStage
  | parseStage
  | xmlPassStage
  | serializeStage
  | repackStage

/-- The stages in execution order. -/
def docxStages : List DocxStage :=
  [.unzipStage, .parseStage, .xmlPassStage, .serializeStage, .repackStage]

/-- Run the staged body: the first stage at which the oracle `failsAt`
reports a raise aborts the rest, as an uncaught Python exception does. -/
def runStages (failsAt : DocxStage → Bool) : List DocxStage → Except DocxStage Unit
  | [] => .ok ()
  | s :: rest => if failsAt s then .error s else runStages failsAt rest

/-- The scratch-directory discipline of `translate_document` (`translate.py`
lines 228-263).  The boolean in the result records whether the scratch
directory `temp_docx` exists when the call finishes.  Lines 229-231 delete
any stale directory and recreate it, so the directory exists when the `try`
body starts whatever the prior state was; the staged body runs inside `try`,
and the `finally` clause removes the directory when it exists, on the normal
and on every raising path. -/
def translateDocumentScratch (failsAt : DocxStage → Bool) :
    Except DocxStage Unit × Bool :=
  let tempAfterSetup := true
  match runStages failsAt docxStages with
  | .ok () => (.ok (), if tempAfterSetup then false else tempAfterSetup)
  | .error e => (.error e, if tempAfterSetup then false else tempAfterSetup)

/-- Input package for the C7 witness: the primary content member next to an
untouched second member. -/
def c7pkg : List (Str × Str) :=
  [(docMemberName, "<doc/>".toList), ("word/styles.xml".toList, "st".toList)]

/-- Output package of the C7 witness run. -/
def c7out : List (Str × Str) :=
  [(docMemberName, "y".toList), ("word/styles.xml".toList, "st".toList)]

/-- Container for the C4 witness: a paragraph with three `w:t` leaves. -/
def c4el : Element := mkP [mkR [mkT "A ", mkT "B ", mkT "C"]]

/-- Container for the C5 witness: a paragraph with two `w:t` leaves. -/
def c5el : Element := mkP [mkR [mkT "a", mkT "b"]]

/-- The non-empty extracted texts of the paragraphs found inside a cell by
`cell.findall('.//w:p')`, in document order: the pieces whose space-join is
the cell's translation unit. -/
def nonEmptyExtracts (cell : Element) : List Str :=
  (((descPaths (fun s => s = wP) cell).filterMap (getAt cell)).map
    extractText).filter (fun t => t != [])

/-- Whether one of the two paths is a prefix of the other, so that the nodes
they address share a subtree. -/
def samePathStart : List Nat → List Nat → Bool
  | [], _ => true
  | _ :: _, [] => true
  | i :: p, j :: q => i == j && samePathStart p q

/-- Pairwise disjointness of a list of paths: no path leads into the subtree
of another (in a well-formed table, the paragraph positions of a cell). -/
def pathsIndep : List (List Nat) → Bool
  | [] => true
  | p :: ps => ps.all (fun q => !samePathStart p q) && pathsIndep ps

/-- Cell for the C6 witness: two paragraphs reading `Hello ` and `World`. -/
def c6cell : Element := mkTc [mkP [mkR [mkT "Hello "]], mkP [mkR [mkT "World"]]]

/-- Backend for the C6 witness: constant `Bonjour le monde`. -/
def c6backend : Str → Str := fun _ => "Bonjour le monde".toList

/-- Claim C1: FALSE on the code.  When the backend's retries are exhausted the
client returns the sentinel string `error`, and the paragraph loop of
`translate_document` passes that sentinel straight to `update_text` with no
`!= "error"` guard (unlike the table pass, `translate.py` line 208): the
non-empty paragraph `Bonjour`, which lies outside any table, ends up reading
`error` instead of keeping its original text. -/
theorem c1_sentinel_overwrites_paragraph :
    wtOptTexts c1doc = [some "Bonjour".toList]
      ∧ extractText c1doc = "Bonjour".toList
      ∧ descPaths (fun t => t = wTbl) c1doc = []
      ∧ wtOptTexts (translateDocumentXml (fun _ => errStr) c1doc).1 = [some errStr]
      ∧ errStr ≠ "Bonjour".toList := by
  refine ⟨rfl, rfl, rfl, rfl, ?_⟩
  decide

/-- Claim C2: FALSE on the code.  `root.findall('.//w:p')` at
`translate.py` line 242 also matches paragraphs inside table cells, so the
unique paragraph of `c2doc` — which lies strictly inside the document's only
table cell `[0,0,0,0]` — is submitted to the backend individually by the
paragraph pass and then again through the per-cell aggregation pass: the
document pass issues two backend requests for its text. -/
theorem c2_table_paragraph_submitted_twice :
    descPaths (fun t => t = wTc) c2doc = [[0, 0, 0, 0]]
      ∧ descPaths (fun t => t = wP) c2doc = [[0, 0, 0, 0, 0]]
      ∧ (paragraphPass (fun s => s) c2doc).2 = ["Hi".toList]
      ∧ (translateDocumentXml (fun s => s) c2doc).2 = ["Hi".toList, "Hi".toList] :=
  ⟨rfl, rfl, rfl, rfl⟩

/-- Claim C3: FALSE on the code.  `extract_text` does return the empty string
for the formula paragraph, but `process_table` then writes the cell's
translation into `paras[0]` with no formula check (`translate.py` line 211):
with a backend that answers `Bonjour`, the formula paragraph's `w:t` leaf is
rewritten from `x` to `Bonjour` by the table pass. -/
theorem c3_formula_leaf_rewritten_by_table_pass :
    hasMathTag c3fp = true
      ∧ extractText c3fp = []
      ∧ getAt c3doc [0, 0, 0, 0, 0] = some c3fp
      ∧ wtOptTexts c3fp = [some "x".toList]
      ∧ (getAt (translateDocumentXml (fun _ => "Bonjour".toList) c3doc).1
          [0, 0, 0, 0, 0]).map wtOptTexts = some [some "Bonjour".toList] :=
  ⟨rfl, rfl, rfl, rfl, rfl⟩

/-- Attempt count of `translateFrom` is bounded by the remaining fuel. -/
theorem translateFrom_count_le (maxRetries : Nat) (att : Nat → Option Str) :
    ∀ fuel i, (translateFrom maxRetries att i fuel).2 ≤ fuel := by
  intro fuel
  induction fuel with
  | zero => intro i; simp [translateFrom]
  | succ n ih =>
    intro i
    simp only [translateFrom]
    cases att i with
    | some s => simp
    | none =>
      by_cases h : i + 1 = maxRetries
      · simp [h]
      · rw [if_neg h]
        show (translateFrom maxRetries att (i + 1) n).2 + 1 ≤ n + 1
        have := ih (i + 1)
        omega

/-- When the loop still has iterations and every attempt raises,
`translateFrom` ends with the sentinel. -/
theorem translateFrom_all_fail (maxRetries : Nat) (att : Nat → Option Str)
    (hall : ∀ j, j < maxRetries → att j = none) :
    ∀ fuel i, i + fuel = maxRetries → 1 ≤ fuel →
      (translateFrom maxRetries att i fuel).1 = some errStr := by
  intro fuel
  induction fuel with
  | zero => intro i _ h; omega
  | succ n ih =>
    intro i hsum _
    have hi : i < maxRetries := by omega
    simp only [translateFrom, hall i hi]
    by_cases h : i + 1 = maxRetries
    · simp [h]
    · have hn : 1 ≤ n := by omega
      rw [if_neg h]
      show (translateFrom maxRetries att (i + 1) n).1 = some errStr
      exact ih (i + 1) (by omega) hn

/-- When the loop still has iterations, `translateFrom` always returns a
value (the `except` arm absorbs every raise, and the last iteration returns
the sentinel). -/
theorem translateFrom_isSome (maxRetries : Nat) (att : Nat → Option Str) :
    ∀ fuel i, i + fuel = maxRetries → 1 ≤ fuel →
      (translateFrom maxRetries att i fuel).1.isSome := by
  intro fuel
  induction fuel with
  | zero => intro i _ h; omega
  | succ n ih =>
    intro i hsum _
    simp only [translateFrom]
    cases att i with
    | some s => simp
    | none =>
      by_cases h : i + 1 = maxRetries
      · simp [h]
      · have hn : 1 ≤ n := by omega
        rw [if_neg h]
        show (translateFrom maxRetries att (i + 1) n).1.isSome
        exact ih (i + 1) (by omega) hn

/-- Claim C8: the client makes at most `max_retries` attempts, and when the
retry budget is at least one (the constructor default is 3) and every attempt
raises, `translate` returns the literal sentinel string `error` rather than
raising — so the document pass, which calls the backend only through this
client, never sees a translation error propagate. -/
theorem c8_client_bounded_retries_sentinel (maxRetries : Nat)
    (att : Nat → Option Str) (h : 1 ≤ maxRetries) :
    (clientTranslate maxRetries att).2 ≤ maxRetries
      ∧ (clientTranslate maxRetries att).1.isSome
      ∧ ((∀ j, j < maxRetries → att j = none) →
          (clientTranslate maxRetries att).1 = some errStr) := by
  refine ⟨translateFrom_count_le maxRetries att maxRetries 0, ?_, ?_⟩
  · exact translateFrom_isSome maxRetries att maxRetries 0 (by omega) h
  · intro hall
    exact translateFrom_all_fail maxRetries att hall maxRetries 0 (by omega) h

/-- Witness for C8 at `max_retries = 3` (the constructor default) with every
attempt raising. -/
theorem c8_witness :
    1 ≤ 3
      ∧ ((clientTranslate 3 (fun _ => none)).2 ≤ 3
          ∧ (clientTranslate 3 (fun _ => none)).1.isSome
          ∧ ((∀ j, j < 3 → (fun _ => (none : Option Str)) j = none) →
              (clientTranslate 3 (fun _ => none)).1 = some errStr)) :=
  ⟨by decide, c8_client_bounded_retries_sentinel 3 (fun _ => none) (by decide)⟩

/-- Claim C10: with `max_retries = 0` the `for attempt in range(0)` loop body
never runs and `translate` falls off the end, returning Python's `None`
(modelled by `none`) for every input — the declared `-> str` interface only
holds under the precondition `max_retries >= 1`, in which case a string is
always returned. -/
theorem c10_zero_retries_returns_none (att : Nat → Option Str)
    (maxRetries : Nat) (h : 1 ≤ maxRetries) :
    (clientTranslate 0 att).1 = none
      ∧ (clientTranslate maxRetries att).1.isSome := by
  constructor
  · rfl
  · exact translateFrom_isSome maxRetries att maxRetries 0 (by omega) h

/-- Witness for C10: zero retries yield `None`, one retry yields a string,
for the all-raising attempt sequence. -/
theorem c10_witness :
    1 ≤ 1
      ∧ ((clientTranslate 0 (fun _ => none)).1 = none
          ∧ (clientTranslate 1 (fun _ => none)).1.isSome) :=
  ⟨by decide, c10_zero_retries_returns_none (fun _ => none) 1 (by decide)⟩

/-- Running the staged body never reports success past a failing stage. -/
theorem runStages_ok_iff (failsAt : DocxStage → Bool) :
    ∀ l, runStages failsAt l = .ok () ↔ ∀ s ∈ l, failsAt s = false := by
  intro l
  induction l with
  | nil => simp [runStages]
  | cons s rest ih =>
    by_cases h : failsAt s
    · simp [runStages, h]
    · simp [runStages, h, ih, Bool.eq_false_iff.mpr h]

/-- Claim C9: whatever the initial state of the scratch directory and
whichever stage (if any) raises — unpack, parse, translate, serialize or
repack — `translate_document` finishes with the scratch directory removed,
and it finishes normally exactly when no stage raises. -/
theorem c9_scratch_removed (failsAt : DocxStage → Bool) :
    (translateDocumentScratch failsAt).2 = false
      ∧ ((translateDocumentScratch failsAt).1 = .ok ()
          ↔ ∀ s ∈ docxStages, failsAt s = false) := by
  constructor
  · unfold translateDocumentScratch
    cases runStages failsAt docxStages with
    | ok u => cases u; rfl
    | error e => rfl
  · unfold translateDocumentScratch
    rw [← runStages_ok_iff failsAt docxStages]
    cases hr : runStages failsAt docxStages with
    | ok u => cases u; simp
    | error e => simp

/-- Claim C7: when `translate_document` succeeds, the output package has
exactly the members of the input package, in name and in order, and every
member other than `word/document.xml` keeps its exact bytes; only the
primary content member's bytes are replaced (by the serialized rewritten
tree). -/
theorem c7_package_members_preserved (parse : Str → Option Element)
    (serialize : Element → Str) (backend : Str → Str)
    (pkg out : List (Str × Str))
    (h : translateDocument parse serialize backend pkg = some out) :
    out.map (fun m => m.1) = pkg.map (fun m => m.1)
      ∧ ∀ m ∈ pkg, m.1 ≠ docMemberName → m ∈ out := by
  unfold translateDocument at h
  cases hf : pkg.find? (fun m => m.1 = docMemberName) with
  | none => rw [hf] at h; exact absurd h (by simp)
  | some m0 =>
    rw [hf] at h
    have h2 : (match parse m0.2 with
        | none => none
        | some root => some (pkg.map (fun q => if q.1 = docMemberName
            then (q.1, serialize (translateDocumentXml backend root).1) else q))) =
        some out := h
    cases hp : parse m0.2 with
    | none => rw [hp] at h2; exact absurd h2 (by simp)
    | some root =>
      rw [hp] at h2
      have hout : out = pkg.map (fun q =>
          if q.1 = docMemberName
          then (q.1, serialize (translateDocumentXml backend root).1) else q) :=
        (Option.some.inj h2).symm
      subst hout
      constructor
      · rw [List.map_map]
        refine List.map_congr_left ?_
        intro q _
        by_cases hq : q.1 = docMemberName <;> simp [hq]
      · intro m hm hname
        have : (if m.1 = docMemberName
            then (m.1, serialize (translateDocumentXml backend root).1) else m) ∈
            pkg.map (fun q => if q.1 = docMemberName
              then (q.1, serialize (translateDocumentXml backend root).1) else q) :=
          List.mem_map_of_mem _ hm
        rwa [if_neg hname] at this

/-- Witness for C7: a concrete two-member package, a parser yielding an empty
paragraph and a serializer yielding `y`. -/
theorem c7_witness :
    translateDocument (fun _ => some (mkP [])) (fun _ => "y".toList)
        (fun s => s) c7pkg = some c7out
      ∧ (c7out.map (fun m => m.1) = c7pkg.map (fun m => m.1)
          ∧ ∀ m ∈ c7pkg, m.1 ≠ docMemberName → m ∈ c7out) :=
  ⟨rfl, c7_package_members_preserved (fun _ => some (mkP [])) (fun _ => "y".toList)
    (fun s => s) c7pkg c7out rfl⟩

/-- Splitting a string with a space appended after a chunk splits the chunk
and the remainder independently. -/
theorem splitWAux_append_space (b : Str) :
    ∀ (a : Str) (acc : Str),
      splitWAux (a ++ ' ' :: b) acc = splitWAux a acc ++ splitW b := by
  intro a
  induction a with
  | nil =>
    intro acc
    by_cases h : acc = []
    · simp [splitWAux, splitW, isSpace, h]
    · simp [splitWAux, splitW, isSpace, h]
  | cons c a ih =>
    intro acc
    by_cases hc : isSpace c
    · by_cases h : acc = []
      · simp [splitWAux, hc, h, ih]
      · simp [splitWAux, hc, h, ih]
    · simp [splitWAux, hc, ih]

/-- Splitting a space-join splits the parts independently. -/
theorem splitW_joinSpace :
    ∀ parts : List Str, splitW (joinSpace parts) = (parts.map splitW).flatten := by
  intro parts
  induction parts with
  | nil => rfl
  | cons s rest ih =>
    cases rest with
    | nil => simp [joinSpace]
    | cons s2 rest2 =>
      have : joinSpace (s :: s2 :: rest2) = s ++ ' ' :: joinSpace (s2 :: rest2) := rfl
      rw [this, splitW, splitWAux_append_space, ih]
      rfl

/-- Every word produced by `splitW` is non-empty and whitespace-free. -/
theorem splitW_words_clean :
    ∀ (s : Str) (acc : Str), (∀ c ∈ acc, isSpace c = false) →
      ∀ w ∈ splitWAux s acc, w ≠ [] ∧ ∀ c ∈ w, isSpace c = false := by
  intro s
  induction s with
  | nil =>
    intro acc hacc w hw
    by_cases h : acc = []
    · simp [splitWAux, h] at hw
    · simp [splitWAux, h] at hw
      subst hw
      refine ⟨by simpa using h, ?_⟩
      intro c hc
      exact hacc c (List.mem_reverse.mp hc)
  | cons c s ih =>
    intro acc hacc w hw
    by_cases hc : isSpace c
    · by_cases h : acc = []
      · simp only [splitWAux, hc, if_pos rfl, h] at hw
        exact ih [] (by simp) w (by simpa using hw)
      · simp only [splitWAux, hc, if_pos rfl, if_neg h] at hw
        rcases List.mem_cons.mp hw with h1 | h2
        · subst h1
          refine ⟨by simpa using h, ?_⟩
          intro d hd
          exact hacc d (List.mem_reverse.mp hd)
        · exact ih [] (by simp) w h2
    · have hc2 : isSpace c = false := by simpa using hc
      simp only [splitWAux, hc2, Bool.false_eq_true, if_false] at hw
      refine ih (c :: acc) ?_ w hw
      intro d hd
      rcases List.mem_cons.mp hd with h1 | h2
      · subst h1; simpa using hc
      · exact hacc d h2

/-- A non-empty whitespace-free string splits into exactly itself. -/
theorem splitWAux_clean (w : Str) (hclean : ∀ c ∈ w, isSpace c = false) :
    ∀ acc : Str,
      splitWAux w acc = if acc.reverse ++ w = [] then [] else [acc.reverse ++ w] := by
  induction w with
  | nil =>
    intro acc
    by_cases h : acc = []
    · simp [splitWAux, h]
    · simp [splitWAux, h]
  | cons c w ih =>
    intro acc
    have hc : isSpace c = false := hclean c (by simp)
    have hcl : ∀ d ∈ w, isSpace d = false := fun d hd => hclean d (List.mem_cons_of_mem c hd)
    simp only [splitWAux, hc, Bool.false_eq_true, if_false]
    rw [ih hcl (c :: acc)]
    have hne : acc.reverse ++ c :: w ≠ [] := by simp
    rw [if_neg (by simp), if_neg hne]
    simp

/-- A non-empty whitespace-free string is a single `splitW` word. -/
theorem splitW_clean_single (w : Str) (hne : w ≠ [])
    (hclean : ∀ c ∈ w, isSpace c = false) : splitW w = [w] := by
  rw [splitW, splitWAux_clean w hclean []]
  simp [hne]

/-- A string of whitespace splits into no words. -/
theorem splitW_all_space :
    ∀ s : Str, (∀ c ∈ s, isSpace c = true) → splitW s = [] := by
  intro s
  induction s with
  | nil => intro _; rfl
  | cons c s ih =>
    intro h
    have hc : isSpace c = true := h c (by simp)
    show splitWAux (c :: s) [] = []
    simp only [splitWAux, hc, if_pos rfl]
    exact ih (fun d hd => h d (List.mem_cons_of_mem c hd))

/-- A string whose `strip` is empty is all whitespace. -/
theorem all_space_of_strip_eq_nil (s : Str) (h : strip s = []) :
    ∀ c ∈ s, isSpace c = true := by
  have h1 : List.dropWhile isSpace (List.reverse (stripLeft s)) = [] := by
    have := h
    unfold strip stripRight at this
    exact List.reverse_eq_nil_iff.mp this
  have h2 : ∀ c ∈ stripLeft s, isSpace c = true := by
    intro c hc
    exact List.dropWhile_eq_nil_iff.mp h1 c (List.mem_reverse.mpr hc)
  intro c hc
  have hsplit : List.takeWhile isSpace s ++ stripLeft s = s := by
    unfold stripLeft
    exact List.takeWhile_append_dropWhile isSpace s
  rw [← hsplit] at hc
  rcases List.mem_append.mp hc with h3 | h4
  · exact List.mem_takeWhile_imp h3
  · exact h2 c h4

/-- A string with at least one word has a non-empty `strip`. -/
theorem strip_ne_nil_of_splitW_ne_nil (s : Str) (h : splitW s ≠ []) :
    strip s ≠ [] := by
  intro hs
  exact h (splitW_all_space s (all_space_of_strip_eq_nil s hs))

/-- Contiguous `take`-slices of width `k`, followed by the remainder, cover
the whole list. -/
theorem flatten_slices (k : Nat) :
    ∀ (n : Nat) (ws : List Str),
      ((List.range n).map (fun i => (ws.drop (i * k)).take k)).flatten
        ++ ws.drop (n * k) = ws := by
  intro n
  induction n with
  | zero => intro ws; simp
  | succ m ih =>
    intro ws
    rw [List.range_succ_eq_map]
    simp only [List.map_cons, List.map_map, List.flatten_cons, Nat.zero_mul,
      List.drop_zero]
    have hstep : ∀ i : Nat,
        ((ws.drop k).drop (i * k)).take k = (ws.drop ((i + 1) * k)).take k := by
      intro i
      rw [List.drop_drop]
      have hx : k + i * k = (i + 1) * k := by
        rw [Nat.succ_mul, Nat.add_comm]
      rw [hx]
    have hmap : (List.range m).map ((fun i => (ws.drop (i * k)).take k) ∘ Nat.succ)
        = (List.range m).map (fun i => ((ws.drop k).drop (i * k)).take k) := by
      refine List.map_congr_left ?_
      intro i _
      simp only [Function.comp]
      rw [hstep i]
    have hdrop : ws.drop ((m + 1) * k) = (ws.drop k).drop (m * k) := by
      rw [List.drop_drop]
      have hx : k + m * k = (m + 1) * k := by
        rw [Nat.succ_mul, Nat.add_comm]
      rw [hx]
    rw [hmap, hdrop, List.append_assoc, ih (ws.drop k)]
    exact List.take_append_drop k ws

/-- Unfolding equation of `wtOptTexts`. -/
theorem wtOptTexts_mk (tag : Str) (tx : Option Str) (ch : List Element) :
    wtOptTexts (.mk tag tx ch) = (if tag = wT then [tx] else []) ++ wtOptTextsL ch := rfl

/-- Unfolding equation of `wtOptTextsL` on `[]`. -/
theorem wtOptTextsL_nil : wtOptTextsL [] = [] := rfl

/-- Unfolding equation of `wtOptTextsL` on `::`. -/
theorem wtOptTextsL_cons (c : Element) (cs : List Element) :
    wtOptTextsL (c :: cs) = wtOptTexts c ++ wtOptTextsL cs := rfl

/-- Unfolding equation of `setTexts`. -/
theorem setTexts_mk (tag : Str) (tx : Option Str) (ch : List Element)
    (repl : List Str) :
    setTexts (.mk tag tx ch) repl =
      (if tag = wT then
        match repl with
        | [] =>
          let p := setTextsL ch []
          (.mk tag tx p.1, p.2)
        | r :: rest =>
          let p := setTextsL ch rest
          (.mk tag (some r) p.1, p.2)
      else
        let p := setTextsL ch repl
        (.mk tag tx p.1, p.2)) := rfl

/-- Unfolding equation of `setTextsL` on `[]`. -/
theorem setTextsL_nil (repl : List Str) : setTextsL [] repl = ([], repl) := rfl

/-- Unfolding equation of `setTextsL` on `::`. -/
theorem setTextsL_cons (c : Element) (cs : List Element) (repl : List Str) :
    setTextsL (c :: cs) repl =
      ((setTexts c repl).1 :: (setTextsL cs (setTexts c repl).2).1,
        (setTextsL cs (setTexts c repl).2).2) := rfl

/-- Unfolding equation of `hasMathTag`. -/
theorem hasMathTag_mk (tag : Str) (tx : Option Str) (ch : List Element) :
    hasMathTag (.mk tag tx ch) = (mathPrefix.isPrefixOf tag || hasMathTagL ch) := rfl

/-- Unfolding equation of `hasMathTagL` on `[]`. -/
theorem hasMathTagL_nil : hasMathTagL [] = false := rfl

/-- Unfolding equation of `hasMathTagL` on `::`. -/
theorem hasMathTagL_cons (c : Element) (cs : List Element) :
    hasMathTagL (c :: cs) = (hasMathTag c || hasMathTagL cs) := rfl

/-- Unfolding equation of `clearTexts`. -/
theorem clearTexts_mk (tag : Str) (tx : Option Str) (ch : List Element) :
    clearTexts (.mk tag tx ch) =
      .mk tag (if tag = wT then some [] else tx) (clearTextsL ch) := rfl

/-- Unfolding equation of `clearTextsL` on `[]`. -/
theorem clearTextsL_nil : clearTextsL [] = [] := rfl

/-- Unfolding equation of `clearTextsL` on `::`. -/
theorem clearTextsL_cons (c : Element) (cs : List Element) :
    clearTextsL (c :: cs) = clearTexts c :: clearTextsL cs := rfl

/-- Unfolding equation of `descPaths`. -/
theorem descPaths_mk (pred : Str → Bool) (tag : Str) (tx : Option Str)
    (ch : List Element) :
    descPaths pred (.mk tag tx ch) = descPathsL pred 0 ch := rfl

/-- Unfolding equation of `descPathsL` on `[]`. -/
theorem descPathsL_nil (pred : Str → Bool) (i : Nat) : descPathsL pred i [] = [] := rfl

/-- Unfolding equation of `descPathsL` on `::`. -/
theorem descPathsL_cons (pred : Str → Bool) (i : Nat) (c : Element)
    (cs : List Element) :
    descPathsL pred i (c :: cs) =
      ((if pred c.tag then [[]] else []) ++ descPaths pred c).map (i :: ·)
        ++ descPathsL pred (i + 1) cs := rfl

/-- Reduced equation of `wtOptTexts` at a `w:t` node. -/
theorem wtOptTexts_wt (tx : Option Str) (ch : List Element) :
    wtOptTexts (.mk wT tx ch) = tx :: wtOptTextsL ch := by
  rw [wtOptTexts_mk]; simp

/-- Reduced equation of `wtOptTexts` at a node that is not a `w:t`. -/
theorem wtOptTexts_not_wt (tag : Str) (tx : Option Str) (ch : List Element)
    (h : tag ≠ wT) : wtOptTexts (.mk tag tx ch) = wtOptTextsL ch := by
  rw [wtOptTexts_mk]; simp [h]

/-- Reduced equation of `setTexts` at a `w:t` node with a replacement left. -/
theorem setTexts_wt (tx : Option Str) (ch : List Element) (r : Str)
    (rest : List Str) :
    setTexts (.mk wT tx ch) (r :: rest) =
      (.mk wT (some r) (setTextsL ch rest).1, (setTextsL ch rest).2) := by
  rw [setTexts_mk]; simp

/-- Reduced equation of `setTexts` at a node that is not a `w:t`. -/
theorem setTexts_not_wt (tag : Str) (tx : Option Str) (ch : List Element)
    (repl : List Str) (h : tag ≠ wT) :
    setTexts (.mk tag tx ch) repl =
      (.mk tag tx (setTextsL ch repl).1, (setTextsL ch repl).2) := by
  rw [setTexts_mk]; simp [h]

mutual
/-- Threading property of `setTexts`: with enough replacement strings, the
`w:t` nodes receive exactly the first `count` strings in document order and
the unconsumed suffix is returned. -/
theorem setTexts_spec (e : Element) :
    ∀ repl : List Str, (wtOptTexts e).length ≤ repl.length →
      wtOptTexts (setTexts e repl).1 = (repl.take (wtOptTexts e).length).map some
        ∧ (setTexts e repl).2 = repl.drop (wtOptTexts e).length := by
  cases e with
  | mk tag tx ch =>
    intro repl hlen
    by_cases htag : tag = wT
    · subst htag
      cases repl with
      | nil =>
        exfalso
        rw [wtOptTexts_wt] at hlen
        simp at hlen
      | cons r rest =>
        have hlen2 : (wtOptTextsL ch).length ≤ rest.length := by
          rw [wtOptTexts_wt] at hlen
          simpa using hlen
        have hrec := setTextsL_spec ch rest hlen2
        rw [setTexts_wt]
        constructor
        · rw [wtOptTexts_wt, wtOptTexts_wt, hrec.1]
          simp
        · rw [wtOptTexts_wt, hrec.2]
          simp
    · have hlen2 : (wtOptTextsL ch).length ≤ repl.length := by
        rw [wtOptTexts_not_wt tag tx ch htag] at hlen
        exact hlen
      have hrec := setTextsL_spec ch repl hlen2
      rw [setTexts_not_wt tag tx ch repl htag]
      constructor
      · rw [wtOptTexts_not_wt tag tx ch htag,
          wtOptTexts_not_wt tag tx _ htag, hrec.1]
      · rw [wtOptTexts_not_wt tag tx ch htag, hrec.2]

/-- List version of `setTexts_spec`. -/
theorem setTextsL_spec (es : List Element) :
    ∀ repl : List Str, (wtOptTextsL es).length ≤ repl.length →
      wtOptTextsL (setTextsL es repl).1 = (repl.take (wtOptTextsL es).length).map some
        ∧ (setTextsL es repl).2 = repl.drop (wtOptTextsL es).length := by
  cases es with
  | nil =>
    intro repl _
    rw [setTextsL_nil, wtOptTextsL_nil]
    exact ⟨rfl, rfl⟩
  | cons c cs =>
    intro repl hlen
    have hlenc : (wtOptTexts c).length ≤ repl.length := by
      rw [wtOptTextsL_cons] at hlen
      simp at hlen
      omega
    have h1 := setTexts_spec c repl hlenc
    have hlencs : (wtOptTextsL cs).length ≤ ((setTexts c repl).2).length := by
      rw [h1.2]
      rw [wtOptTextsL_cons] at hlen
      simp at hlen
      simp
      omega
    have h2 := setTextsL_spec cs (setTexts c repl).2 hlencs
    rw [setTextsL_cons]
    constructor
    · rw [wtOptTextsL_cons, wtOptTextsL_cons, h1.1, h2.1, h1.2]
      simp only [List.length_append]
      rw [List.take_add, List.map_append]
    · rw [wtOptTextsL_cons, h2.2, h1.2]
      simp only [List.length_append]
      rw [List.drop_drop, Nat.add_comm]
end

/-- `distributeWords` yields one string per leaf. -/
theorem distributeWords_length (n : Nat) (tr : Str) :
    (distributeWords n tr).length = n := by
  simp [distributeWords]

/-- For a non-whitespace translation and at least two leaves, `update_text`
assigns exactly the strings of `distributeWords` to the leaves in document
order. -/
theorem wtOptTexts_updateText (e : Element) (tr : Str)
    (h1 : strip tr ≠ []) (h2 : 2 ≤ (wtOptTexts e).length) :
    wtOptTexts (updateText e tr)
      = (distributeWords (wtOptTexts e).length tr).map some := by
  unfold updateText
  rw [if_neg h1]
  have h0 : ¬((wtOptTexts e).length = 0) := by omega
  have hone : ¬((wtOptTexts e).length = 1) := by omega
  simp only [h0, hone, if_false, if_neg h0, if_neg hone]
  have hlen : (wtOptTexts e).length
      ≤ (distributeWords (wtOptTexts e).length tr).length := by
    rw [distributeWords_length]
  have hspec := (setTexts_spec e (distributeWords (wtOptTexts e).length tr) hlen).1
  rw [hspec]
  congr 1
  exact List.take_of_length_le (by rw [distributeWords_length])

/-- Flattening a list of singletons is the identity. -/
theorem flatten_map_singleton (l : List Str) :
    (l.map (fun x => [x])).flatten = l := by
  induction l with
  | nil => rfl
  | cons x xs ih => simp [List.flatten_cons, ih]

/-- Splitting each distributed string recovers exactly its word slice. -/
theorem splitW_distributeWords (n : Nat) (tr : Str) :
    (distributeWords n tr).map splitW
      = (List.range n).map (fun i =>
          if i < n - 1 then
            ((splitW tr).drop (i * max 1 ((splitW tr).length / n))).take
              (max 1 ((splitW tr).length / n))
          else (splitW tr).drop (i * max 1 ((splitW tr).length / n))) := by
  have hclean := splitW_words_clean tr [] (by simp)
  simp only [distributeWords, List.map_map]
  refine List.map_congr_left ?_
  intro i _
  simp only [Function.comp]
  by_cases hs : i * max 1 ((splitW tr).length / n) < (splitW tr).length
  · rw [if_pos hs]
    by_cases hl : i < n - 1
    · rw [if_pos hl, if_pos hl, splitW_joinSpace]
      have hsingle : ∀ w ∈ ((splitW tr).drop
            (i * max 1 ((splitW tr).length / n))).take
            (max 1 ((splitW tr).length / n)), splitW w = [w] := by
        intro w hw
        have hmem : w ∈ splitW tr :=
          List.mem_of_mem_drop (List.mem_of_mem_take hw)
        have hc := hclean w hmem
        exact splitW_clean_single w hc.1 hc.2
      rw [List.map_congr_left hsingle]
      exact flatten_map_singleton _
    · rw [if_neg hl, if_neg hl, splitW_joinSpace]
      have hsingle : ∀ w ∈ (splitW tr).drop
            (i * max 1 ((splitW tr).length / n)), splitW w = [w] := by
        intro w hw
        have hmem : w ∈ splitW tr := List.mem_of_mem_drop hw
        have hc := hclean w hmem
        exact splitW_clean_single w hc.1 hc.2
      rw [List.map_congr_left hsingle]
      exact flatten_map_singleton _
  · rw [if_neg hs]
    have hdrop : (splitW tr).drop (i * max 1 ((splitW tr).length / n)) = [] :=
      List.drop_of_length_le (by omega)
    by_cases hl : i < n - 1
    · rw [if_pos hl, hdrop, List.take_nil]
      rfl
    · rw [if_neg hl, hdrop]
      rfl

/-- Word conservation of the distribution: splitting the space-join of the
distributed strings yields exactly the original word sequence. -/
theorem splitW_join_distribute (n : Nat) (tr : Str) (hn : 2 ≤ n) :
    splitW (joinSpace (distributeWords n tr)) = splitW tr := by
  rw [splitW_joinSpace, splitW_distributeWords]
  obtain ⟨m, hm⟩ : ∃ m, n = m + 1 := ⟨n - 1, by omega⟩
  subst hm
  rw [List.range_succ, List.map_append, List.map_singleton]
  have hmlt : ¬(m < m + 1 - 1) := by omega
  rw [if_neg hmlt]
  have hinit : (List.range m).map (fun i =>
      if i < m + 1 - 1 then
        ((splitW tr).drop (i * max 1 ((splitW tr).length / (m + 1)))).take
          (max 1 ((splitW tr).length / (m + 1)))
      else (splitW tr).drop (i * max 1 ((splitW tr).length / (m + 1))))
      = (List.range m).map (fun i =>
          ((splitW tr).drop (i * max 1 ((splitW tr).length / (m + 1)))).take
            (max 1 ((splitW tr).length / (m + 1)))) := by
    refine List.map_congr_left ?_
    intro i hi
    rw [if_pos (by have := List.mem_range.mp hi; omega)]
  rw [hinit, List.flatten_append]
  simp only [List.flatten_cons, List.flatten_nil, List.append_nil]
  exact flatten_slices (max 1 ((splitW tr).length / (m + 1))) m (splitW tr)

/-- Claim C4: for a container with at least two text leaves and a
non-whitespace translated string, `update_text` assigns leaf `i` the words
`words[i*k : (i+1)*k]` joined by single spaces (with
`k = max(1, total_words / leaf_count)` in integer division), the last leaf
all words from its start index on, and the empty string to any leaf whose
start index is at or past the word count. -/
theorem c4_update_text_distribution (e : Element) (tr : Str)
    (h1 : strip tr ≠ []) (h2 : 2 ≤ (wtOptTexts e).length) :
    wtOptTexts (updateText e tr)
      = (List.range (wtOptTexts e).length).map (fun i =>
          some (
            if i * max 1 ((splitW tr).length / (wtOptTexts e).length)
                < (splitW tr).length then
              if i < (wtOptTexts e).length - 1 then
                joinSpace (((splitW tr).drop
                    (i * max 1 ((splitW tr).length / (wtOptTexts e).length))).take
                  (max 1 ((splitW tr).length / (wtOptTexts e).length)))
              else
                joinSpace ((splitW tr).drop
                  (i * max 1 ((splitW tr).length / (wtOptTexts e).length)))
            else [])) := by
  rw [wtOptTexts_updateText e tr h1 h2]
  simp only [distributeWords, List.map_map]
  rfl

/-- Witness for C4: three leaves and the translated text `X Y Z W` satisfy
the hypotheses, and the claimed distribution holds there, coming out as
leaves `X`, `Y`, `Z W`. -/
theorem c4_witness :
    (strip "X Y Z W".toList ≠ [] ∧ 2 ≤ (wtOptTexts c4el).length)
      ∧ wtOptTexts (updateText c4el "X Y Z W".toList)
          = (List.range (wtOptTexts c4el).length).map (fun i =>
              some (
                if i * max 1 ((splitW "X Y Z W".toList).length
                    / (wtOptTexts c4el).length)
                    < (splitW "X Y Z W".toList).length then
                  if i < (wtOptTexts c4el).length - 1 then
                    joinSpace (((splitW "X Y Z W".toList).drop
                        (i * max 1 ((splitW "X Y Z W".toList).length
                          / (wtOptTexts c4el).length))).take
                      (max 1 ((splitW "X Y Z W".toList).length
                        / (wtOptTexts c4el).length)))
                  else
                    joinSpace ((splitW "X Y Z W".toList).drop
                      (i * max 1 ((splitW "X Y Z W".toList).length
                        / (wtOptTexts c4el).length)))
                else []))
      ∧ wtOptTexts (updateText c4el "X Y Z W".toList)
          = [some "X".toList, some "Y".toList, some "Z W".toList] :=
  ⟨⟨by decide, by decide⟩,
    c4_update_text_distribution c4el "X Y Z W".toList (by decide) (by decide),
    rfl⟩

/-- Claim C5: for a container with at least two text leaves and a translated
string with at least one word, redistribution conserves words — splitting
the space-join of the leaves' texts after `update_text` gives back exactly
the translated string's word sequence. -/
theorem c5_redistribution_word_conservation (e : Element) (tr : Str)
    (h2 : 2 ≤ (wtOptTexts e).length) (h3 : splitW tr ≠ []) :
    splitW (joinSpace ((wtOptTexts (updateText e tr)).map (fun o => o.getD [])))
      = splitW tr := by
  have h1 : strip tr ≠ [] := strip_ne_nil_of_splitW_ne_nil tr h3
  rw [wtOptTexts_updateText e tr h1 h2, List.map_map]
  have hcomp : ((fun o => Option.getD o []) ∘ some) = @id Str := rfl
  rw [hcomp, List.map_id]
  exact splitW_join_distribute (wtOptTexts e).length tr h2

/-- Witness for C5 on a two-leaf paragraph and a three-word translation. -/
theorem c5_witness :
    (2 ≤ (wtOptTexts c5el).length ∧ splitW "un deux trois".toList ≠ [])
      ∧ splitW (joinSpace ((wtOptTexts
            (updateText c5el "un deux trois".toList)).map (fun o => o.getD [])))
          = splitW "un deux trois".toList :=
  ⟨⟨by decide, by decide⟩,
    c5_redistribution_word_conservation c5el "un deux trois".toList
      (by decide) (by decide)⟩

/-- Dropping while a predicate holds is idempotent. -/
theorem dropWhile_dropWhile (p : Char → Bool) :
    ∀ l : Str, (l.dropWhile p).dropWhile p = l.dropWhile p := by
  intro l
  induction l with
  | nil => rfl
  | cons c rest ih =>
    by_cases hc : p c
    · simp [List.dropWhile, hc, ih]
    · simp [List.dropWhile, hc]

/-- Every list is some prefix followed by its `dropWhile`. -/
theorem exists_append_dropWhile (p : Char → Bool) :
    ∀ l : Str, ∃ t, l = t ++ l.dropWhile p := by
  intro l
  induction l with
  | nil => exact ⟨[], rfl⟩
  | cons c rest ih =>
    by_cases hc : p c
    · obtain ⟨t, ht⟩ := ih
      exact ⟨c :: t, by simp [List.dropWhile, hc]; exact ht⟩
    · exact ⟨[], by simp [List.dropWhile, hc]⟩

/-- A `dropWhile` of full length is the identity. -/
theorem dropWhile_eq_self_of_length (p : Char → Bool) (l : Str)
    (h : (l.dropWhile p).length = l.length) : l.dropWhile p = l := by
  obtain ⟨t, ht⟩ := exists_append_dropWhile p l
  have hlen : t.length + (l.dropWhile p).length = l.length := by
    rw [← List.length_append, ← ht]
  have ht0 : t.length = 0 := by omega
  rw [List.length_eq_zero] at ht0
  subst ht0
  exact ht.symm

/-- `dropWhile` never lengthens. -/
theorem length_dropWhile_le (p : Char → Bool) :
    ∀ l : Str, (l.dropWhile p).length ≤ l.length := by
  intro l
  induction l with
  | nil => simp
  | cons c rest ih =>
    by_cases hc : p c
    · simp only [List.dropWhile, hc]
      calc (rest.dropWhile p).length ≤ rest.length := ih
        _ ≤ (c :: rest).length := by simp
    · simp [List.dropWhile, hc]

/-- `stripLeft` never lengthens. -/
theorem stripLeft_length_le (s : Str) : (stripLeft s).length ≤ s.length :=
  length_dropWhile_le isSpace s

/-- `stripRight` never lengthens. -/
theorem stripRight_length_le (s : Str) : (stripRight s).length ≤ s.length := by
  unfold stripRight
  rw [List.length_reverse]
  calc (s.reverse.dropWhile isSpace).length ≤ s.reverse.length :=
        length_dropWhile_le isSpace s.reverse
    _ = s.length := List.length_reverse s

/-- A fixed point of `strip` is a fixed point of `stripLeft`. -/
theorem stripLeft_eq_self_of_strip (s : Str) (h : strip s = s) :
    stripLeft s = s := by
  have h1 : s.length ≤ (stripLeft s).length := by
    conv_lhs => rw [← h]
    exact stripRight_length_le (stripLeft s)
  have h2 := stripLeft_length_le s
  have h3 : (List.dropWhile isSpace s).length = (stripLeft s).length := rfl
  exact dropWhile_eq_self_of_length isSpace s (by omega)

/-- A fixed point of `strip` is a fixed point of `stripRight`. -/
theorem stripRight_eq_self_of_strip (s : Str) (h : strip s = s) :
    stripRight s = s := by
  have h1 := stripLeft_eq_self_of_strip s h
  calc stripRight s = stripRight (stripLeft s) := by rw [h1]
    _ = s := h

/-- A non-empty fixed point of `stripLeft` starts with a non-space. -/
theorem head_not_space_of_stripLeft (c : Char) (rest : Str)
    (h : stripLeft (c :: rest) = c :: rest) : isSpace c = false := by
  by_cases hc : isSpace c
  · exfalso
    have heq : stripLeft (c :: rest) = stripLeft rest := by
      simp [stripLeft, List.dropWhile, hc]
    rw [heq] at h
    have h1 := stripLeft_length_le rest
    have h2 : (stripLeft rest).length = rest.length + 1 := by
      rw [h]; rfl
    omega
  · simpa using hc

/-- `dropWhile` over an append: either the first part is consumed entirely,
or the second part is untouched. -/
theorem dropWhile_append_model (p : Char → Bool) :
    ∀ a b : Str, (a ++ b).dropWhile p =
      if a.dropWhile p = [] then b.dropWhile p else a.dropWhile p ++ b := by
  intro a
  induction a with
  | nil => intro b; simp
  | cons c a ih =>
    intro b
    by_cases hc : p c
    · simp only [List.cons_append, List.dropWhile, hc]
      exact ih b
    · simp [List.dropWhile, hc]

/-- `stripRight` over an append: either the second part vanishes, or the
first part is untouched. -/
theorem stripRight_append (a b : Str) :
    stripRight (a ++ b) =
      if stripRight b = [] then stripRight a else a ++ stripRight b := by
  unfold stripRight
  rw [List.reverse_append, dropWhile_append_model]
  by_cases hb : b.reverse.dropWhile isSpace = []
  · rw [if_pos hb, if_pos (by rw [hb]; rfl)]
  · rw [if_neg hb, if_neg (by simpa using hb)]
    simp

/-- `stripRight` yields a prefix of the original string. -/
theorem exists_append_stripRight (s : Str) :
    ∃ t, s = stripRight s ++ t := by
  obtain ⟨t, ht⟩ := exists_append_dropWhile isSpace s.reverse
  refine ⟨t.reverse, ?_⟩
  have h2 : s.reverse.reverse
      = (t ++ s.reverse.dropWhile isSpace).reverse := by rw [← ht]
  rw [List.reverse_reverse, List.reverse_append] at h2
  exact h2

/-- `strip` is idempotent. -/
theorem strip_strip (s : Str) : strip (strip s) = strip s := by
  show stripRight (stripLeft (stripRight (stripLeft s))) = strip s
  have h1 : stripLeft (stripLeft s) = stripLeft s := dropWhile_dropWhile isSpace s
  have h2 : stripLeft (stripRight (stripLeft s)) = stripRight (stripLeft s) := by
    cases hsr : stripRight (stripLeft s) with
    | nil => rfl
    | cons c rest =>
      obtain ⟨t, ht⟩ := exists_append_stripRight (stripLeft s)
      rw [hsr] at ht
      have hchead : isSpace c = false := by
        refine head_not_space_of_stripLeft c (rest ++ t) ?_
        have h1' := h1
        rw [ht] at h1'
        simpa using h1'
      simp [stripLeft, List.dropWhile, hchead]
  rw [h2]
  show stripRight (stripRight (stripLeft s)) = stripRight (stripLeft s)
  unfold stripRight
  rw [List.reverse_reverse, dropWhile_dropWhile]

/-- `extract_text` returns a stripped string. -/
theorem extractText_stripped (e : Element) :
    strip (extractText e) = extractText e := by
  unfold extractText
  by_cases h : hasMathTag e
  · rw [if_pos h]
    rfl
  · rw [if_neg h]
    exact strip_strip _

/-- A space-join headed by a non-empty part is non-empty. -/
theorem joinSpace_ne_nil (t : Str) (ts : List Str) (ht : t ≠ []) :
    joinSpace (t :: ts) ≠ [] := by
  cases ts with
  | nil => simpa [joinSpace] using ht
  | cons u ts2 =>
    show t ++ ' ' :: joinSpace (u :: ts2) ≠ []
    simp

/-- Stripping one trailing space from a single space is everything. -/
theorem stripRight_single_space : stripRight [' '] = [] := by decide

/-- The `stripRight` of pieces each followed by one space is their
space-join, when every piece is non-empty and stripped. -/
theorem stripRight_spacedConcat :
    ∀ ts : List Str, (∀ t ∈ ts, t ≠ [] ∧ strip t = t) →
      stripRight ((ts.map (fun t => t ++ [' '])).flatten) = joinSpace ts := by
  intro ts
  induction ts with
  | nil => intro _; rfl
  | cons t ts ih =>
    intro hts
    have htstr := (hts t (by simp)).2
    cases ts with
    | nil =>
      simp only [List.map_cons, List.map_nil, List.flatten_cons,
        List.flatten_nil, List.append_nil]
      rw [stripRight_append, if_pos stripRight_single_space]
      rw [stripRight_eq_self_of_strip t htstr]
      rfl
    | cons u ts2 =>
      have hr := ih (fun x hx => hts x (List.mem_cons_of_mem t hx))
      have hune := (hts u (by simp)).1
      have hjne : joinSpace (u :: ts2) ≠ [] := joinSpace_ne_nil u ts2 hune
      show stripRight ((t ++ [' ']) ++
          ((u :: ts2).map (fun x => x ++ [' '])).flatten) = joinSpace (t :: u :: ts2)
      rw [List.append_assoc, List.singleton_append]
      have hsp : stripRight
          (' ' :: ((u :: ts2).map (fun x => x ++ [' '])).flatten)
          = ' ' :: joinSpace (u :: ts2) := by
        rw [← List.singleton_append, stripRight_append, if_neg (by rw [hr]; exact hjne)]
        rw [hr]
        rfl
      rw [stripRight_append, if_neg (by rw [hsp]; simp), hsp]
      rfl

/-- The `strip` of pieces each followed by one space is their space-join,
when every piece is non-empty and stripped. -/
theorem strip_spacedConcat (ts : List Str)
    (hts : ∀ t ∈ ts, t ≠ [] ∧ strip t = t) :
    strip ((ts.map (fun t => t ++ [' '])).flatten) = joinSpace ts := by
  cases ts with
  | nil => rfl
  | cons t ts =>
    have htne := (hts t (by simp)).1
    have htstr := (hts t (by simp)).2
    show stripRight (stripLeft ((t ++ [' ']) ++
        (ts.map (fun x => x ++ [' '])).flatten)) = joinSpace (t :: ts)
    cases t with
    | nil => exact absurd rfl htne
    | cons c rest =>
      have hchead : isSpace c = false :=
        head_not_space_of_stripLeft c rest (stripLeft_eq_self_of_strip _ htstr)
      have hsl : stripLeft ((c :: rest ++ [' ']) ++
          (ts.map (fun x => x ++ [' '])).flatten)
          = (c :: rest ++ [' ']) ++ (ts.map (fun x => x ++ [' '])).flatten := by
        simp [stripLeft, List.dropWhile, hchead]
      rw [hsl]
      exact stripRight_spacedConcat ((c :: rest) :: ts) hts

/-- The aggregation loop of `process_table` appends `text + ' '` for exactly
the paragraphs with non-empty extracted text. -/
theorem aggFold (cell : Element) :
    ∀ (paths : List (List Nat)) (acc : Str),
      paths.foldl (fun acc pp =>
        match getAt cell pp with
        | none => acc
        | some para =>
          let t := extractText para
          if strip t = [] then acc else acc ++ t ++ [' ']) acc
      = acc ++ ((((paths.filterMap (getAt cell)).map extractText).filter
          (fun t => t != [])).map (fun t => t ++ [' '])).flatten := by
  intro paths
  induction paths with
  | nil => intro acc; simp
  | cons pp rest ih =>
    intro acc
    rw [List.foldl_cons]
    cases hg : getAt cell pp with
    | none =>
      simp only [hg]
      rw [ih acc, List.filterMap_cons_none hg]
    | some para =>
      simp only [hg]
      by_cases ht : extractText para = []
      · rw [if_pos (by rw [ht]; rfl), ih acc, List.filterMap_cons_some hg]
        simp [ht]
      · rw [if_neg (by rw [extractText_stripped]; exact ht), ih _,
          List.filterMap_cons_some hg]
        have hfil : (extractText para != []) = true := by simpa using ht
        simp [hfil, List.append_assoc]

/-- The cell aggregation of `process_table` is the single-space join of the
non-empty extracted texts of the cell's paragraphs. -/
theorem aggregateCellText_eq (cell : Element) :
    aggregateCellText cell = joinSpace (nonEmptyExtracts cell) := by
  unfold aggregateCellText
  rw [aggFold cell _ [], List.nil_append]
  refine strip_spacedConcat _ ?_
  intro t htmem
  have h1 := List.mem_filter.mp htmem
  constructor
  · simpa using h1.2
  · obtain ⟨para, _, hpara⟩ := List.mem_map.mp h1.1
    rw [← hpara]
    exact extractText_stripped para

/-- `samePathStart` is symmetric. -/
theorem samePathStart_comm : ∀ p q : List Nat,
    samePathStart p q = samePathStart q p := by
  intro p
  induction p with
  | nil =>
    intro q
    cases q with
    | nil => rfl
    | cons j q => rfl
  | cons i p ih =>
    intro q
    cases q with
    | nil => rfl
    | cons j q =>
      show (i == j && samePathStart p q) = (j == i && samePathStart q p)
      rw [ih q]
      by_cases hij : i = j
      · subst hij; rfl
      · have h1 : (i == j) = false := by
          simp only [beq_eq_false_iff_ne]; exact hij
        have h2 : (j == i) = false := by
          simp only [beq_eq_false_iff_ne]; exact fun e => hij e.symm
        rw [h1, h2]

/-- A shared prefix does not change path disjointness. -/
theorem samePathStart_append : ∀ (a p q : List Nat),
    samePathStart (a ++ p) (a ++ q) = samePathStart p q := by
  intro a
  induction a with
  | nil => intro p q; rfl
  | cons i a ih =>
    intro p q
    show (i == i && samePathStart (a ++ p) (a ++ q)) = samePathStart p q
    rw [ih p q]
    simp

/-- Reading along a concatenated path reads the two parts in turn. -/
theorem getAt_append : ∀ (p q : List Nat) (t : Element),
    getAt t (p ++ q) = (getAt t p).bind (fun e => getAt e q) := by
  intro p
  induction p with
  | nil => intro q t; rfl
  | cons i p ih =>
    intro q t
    show getAt t (i :: (p ++ q)) = (getAt t (i :: p)).bind (fun e => getAt e q)
    simp only [getAt]
    cases h : t.children[i]? with
    | none => rfl
    | some c => exact ih q c

/-- Reading back the path just modified sees the modification. -/
theorem getAt_modifyAt_self (f : Element → Element) :
    ∀ (p : List Nat) (t : Element),
      getAt (modifyAt t p f) p = (getAt t p).map f := by
  intro p
  induction p with
  | nil =>
    intro t
    cases t with
    | mk tag tx ch => rfl
  | cons i p ih =>
    intro t
    cases t with
    | mk tag tx ch =>
      cases h : ch[i]? with
      | none =>
        simp only [modifyAt, h]
        show getAt (Element.mk tag tx ch) (i :: p) = _
        simp only [getAt, Element.children, h]
        rfl
      | some c =>
        have hlt : i < ch.length := by
          rcases List.getElem?_eq_some_iff.mp h with ⟨hl, _⟩
          exact hl
        simp only [modifyAt, h]
        show (match (ch.set i (modifyAt c p f))[i]? with
            | none => none
            | some d => getAt d p) = (getAt (Element.mk tag tx ch) (i :: p)).map f
        rw [List.getElem?_set_self (by simpa using hlt)]
        show getAt (modifyAt c p f) p = _
        rw [ih c]
        simp only [getAt, Element.children, h]

/-- Modifying along one path does not change the node addressed by a
disjoint path. -/
theorem getAt_modifyAt_indep (f : Element → Element) :
    ∀ (p q : List Nat) (t : Element), samePathStart p q = false →
      getAt (modifyAt t q f) p = getAt t p := by
  intro p
  induction p with
  | nil =>
    intro q t h
    exact absurd h (by simp [samePathStart])
  | cons i p ih =>
    intro q t h
    cases q with
    | nil => exact absurd h (by simp [samePathStart])
    | cons j q =>
      have hsplit : (i == j && samePathStart p q) = false := h
      cases t with
      | mk tag tx ch =>
        by_cases hij : i = j
        · subst hij
          have hpq : samePathStart p q = false := by
            simpa using hsplit
          cases hc : ch[i]? with
          | none => simp only [modifyAt, hc]
          | some c =>
            have hlt : i < ch.length := by
              rcases List.getElem?_eq_some_iff.mp hc with ⟨hl, _⟩
              exact hl
            simp only [modifyAt, hc]
            show (match (ch.set i (modifyAt c q f))[i]? with
                | none => none
                | some d => getAt d p) = getAt (Element.mk tag tx ch) (i :: p)
            rw [List.getElem?_set_self (by simpa using hlt)]
            show getAt (modifyAt c q f) p = _
            rw [ih q c hpq]
            simp only [getAt, Element.children, hc]
        · cases hcj : ch[j]? with
          | none => simp only [modifyAt, hcj]
          | some cj =>
            simp only [modifyAt, hcj]
            show (match (ch.set j (modifyAt cj q f))[i]? with
                | none => none
                | some d => getAt d p) = getAt (Element.mk tag tx ch) (i :: p)
            rw [List.getElem?_set_ne (fun hx => hij hx.symm)]
            simp only [getAt, Element.children]

/-- A fold of modifications at paths disjoint from `p` does not change the
node addressed by `p`. -/
theorem getAt_foldl_modify_indep (g : Element → Element) :
    ∀ (qs : List (List Nat)) (t : Element) (p : List Nat),
      (∀ q ∈ qs, samePathStart p q = false) →
      getAt (qs.foldl (fun r q => modifyAt r q g) t) p = getAt t p := by
  intro qs
  induction qs with
  | nil => intro t p _; rfl
  | cons x qs ih =>
    intro t p h
    rw [List.foldl_cons]
    rw [ih (modifyAt t x g) p (fun q hq => h q (List.mem_cons_of_mem x hq))]
    exact getAt_modifyAt_indep g p x t (h x (by simp))

/-- A fold of modifications at pairwise disjoint paths applies the
modification once at each of its paths. -/
theorem getAt_foldl_modify_self (g : Element → Element) :
    ∀ (qs : List (List Nat)) (t : Element) (q : List Nat), q ∈ qs →
      pathsIndep qs = true →
      getAt (qs.foldl (fun r q' => modifyAt r q' g) t) q = (getAt t q).map g := by
  intro qs
  induction qs with
  | nil => intro t q hq _; exact absurd hq (by simp)
  | cons x qs ih =>
    intro t q hq hindep
    have hparts : qs.all (fun q' => !samePathStart x q') = true
        ∧ pathsIndep qs = true := by
      have := hindep
      rw [pathsIndep] at this
      exact Bool.and_eq_true_iff.mp this
    rw [List.foldl_cons]
    rcases List.mem_cons.mp hq with h1 | h2
    · subst h1
      rw [getAt_foldl_modify_indep g qs (modifyAt t q g) q ?hdis]
      · exact getAt_modifyAt_self g q t
      case hdis =>
        intro q' hq'
        have := List.all_eq_true.mp hparts.1 q' hq'
        simpa using this
    · rw [ih (modifyAt t x g) q h2 hparts.2]
      rw [getAt_modifyAt_indep g q x t ?hd]
      case hd =>
        have := List.all_eq_true.mp hparts.1 q h2
        rw [samePathStart_comm]
        simpa using this

mutual
/-- `clearTexts` sets every `w:t` text of the subtree to the empty string. -/
theorem wtOptTexts_clearTexts (e : Element) :
    wtOptTexts (clearTexts e) = (wtOptTexts e).map (fun _ => some []) := by
  cases e with
  | mk tag tx ch =>
    rw [clearTexts_mk, wtOptTexts_mk, wtOptTexts_mk, List.map_append]
    rw [wtOptTextsL_clearTextsL ch]
    by_cases htag : tag = wT
    · simp [htag]
    · simp [htag]

/-- List version of `wtOptTexts_clearTexts`. -/
theorem wtOptTextsL_clearTextsL (es : List Element) :
    wtOptTextsL (clearTextsL es) = (wtOptTextsL es).map (fun _ => some []) := by
  cases es with
  | nil => rfl
  | cons c cs =>
    rw [clearTextsL_cons, wtOptTextsL_cons, wtOptTextsL_cons, List.map_append,
      wtOptTexts_clearTexts c, wtOptTextsL_clearTextsL cs]
end

/-- Boolean `all` respects pointwise equality on the list. -/
theorem all_congr_local {α : Type} (l : List α) (p q : α → Bool)
    (h : ∀ x ∈ l, p x = q x) : l.all p = l.all q := by
  induction l with
  | nil => rfl
  | cons x l ih =>
    rw [List.all_cons, List.all_cons, h x (by simp),
      ih (fun y hy => h y (List.mem_cons_of_mem x hy))]

/-- Prefixing every path with the same lead keeps pairwise disjointness. -/
theorem pathsIndep_map_append (a : List Nat) :
    ∀ ps : List (List Nat),
      pathsIndep (ps.map (fun p => a ++ p)) = pathsIndep ps := by
  intro ps
  induction ps with
  | nil => rfl
  | cons p ps ih =>
    show ((ps.map (fun x => a ++ x)).all (fun q => !samePathStart (a ++ p) q)
        && pathsIndep (ps.map (fun x => a ++ x)))
      = (ps.all (fun q => !samePathStart p q) && pathsIndep ps)
    rw [ih, List.all_map]
    have hcong : ps.all ((fun q => !samePathStart (a ++ p) q) ∘ (fun x => a ++ x))
        = ps.all (fun q => !samePathStart p q) := by
      refine all_congr_local ps _ _ ?_
      intro x _
      show (!samePathStart (a ++ p) (a ++ x)) = !samePathStart p x
      rw [samePathStart_append]
    rw [hcong]

/-- Splitting the head off a `pathsIndep` certificate. -/
theorem pathsIndep_cons (p : List Nat) (ps : List (List Nat))
    (h : pathsIndep (p :: ps) = true) :
    (∀ q ∈ ps, samePathStart p q = false) ∧ pathsIndep ps = true := by
  have h2 : (ps.all (fun q => !samePathStart p q) && pathsIndep ps) = true := h
  rcases Bool.and_eq_true_iff.mp h2 with ⟨ha, hb⟩
  refine ⟨?_, hb⟩
  intro q hq
  have := List.all_eq_true.mp ha q hq
  simpa using this

/-- Claim C6: the per-cell step of `process_table` aggregates the extracted
texts of all the cell's paragraphs joined by single spaces, issues exactly
one translation request when that aggregate is non-empty (none otherwise),
leaves the tree untouched on an empty cell or an empty/sentinel reply, and
on a successful reply writes the translation into the cell's first
paragraph via `update_text` and sets the text of every `w:t` leaf of every
subsequent paragraph to the empty string — provided the cell's paragraph
positions are pairwise disjoint subtrees, as in a well-formed table. -/
theorem c6_process_cell_spec (backend : Str → Str) (t : Element)
    (acc : List Str) (cellPath : List Nat) (cell : Element)
    (hcell : getAt t cellPath = some cell)
    (hindep : pathsIndep (descPaths (fun s => s = wP) cell) = true) :
    aggregateCellText cell = joinSpace (nonEmptyExtracts cell)
      ∧ (processCellAt backend (t, acc) cellPath).2
          = acc ++ (if aggregateCellText cell = [] then []
              else [aggregateCellText cell])
      ∧ (aggregateCellText cell = [] →
          (processCellAt backend (t, acc) cellPath).1 = t)
      ∧ (backend (aggregateCellText cell) = [] ∨
            backend (aggregateCellText cell) = errStr →
          (processCellAt backend (t, acc) cellPath).1 = t)
      ∧ (∀ p0 rest, descPaths (fun s => s = wP) cell = p0 :: rest →
          aggregateCellText cell ≠ [] →
          backend (aggregateCellText cell) ≠ [] →
          backend (aggregateCellText cell) ≠ errStr →
          getAt (processCellAt backend (t, acc) cellPath).1 (cellPath ++ p0)
              = (getAt cell p0).map
                  (fun e => updateText e (backend (aggregateCellText cell)))
            ∧ ∀ pp ∈ rest,
                (getAt (processCellAt backend (t, acc) cellPath).1
                    (cellPath ++ pp)).map wtOptTexts
                  = (getAt cell pp).map
                      (fun e => (wtOptTexts e).map (fun _ => some ([] : Str)))) := by
  refine ⟨aggregateCellText_eq cell, ?_⟩
  have hstep : processCellAt backend (t, acc) cellPath =
      (if aggregateCellText cell = [] then (t, acc)
       else if backend (aggregateCellText cell) ≠ [] ∧
           backend (aggregateCellText cell) ≠ errStr then
         match descPaths (fun s => s = wP) cell with
         | [] => (t, acc ++ [aggregateCellText cell])
         | p0 :: rest =>
           (rest.foldl (fun r pp => modifyAt r (cellPath ++ pp) clearTexts)
             (modifyAt t (cellPath ++ p0)
               (fun e => updateText e (backend (aggregateCellText cell)))),
            acc ++ [aggregateCellText cell])
       else (t, acc ++ [aggregateCellText cell])) := by
    rw [processCellAt, hcell]
  by_cases hA : aggregateCellText cell = []
  · rw [hstep, if_pos hA, if_pos hA]
    refine ⟨by simp, fun _ => rfl, fun _ => rfl, ?_⟩
    intro p0 rest _ hne _ _
    exact absurd hA hne
  · rw [hstep, if_neg hA, if_neg hA]
    by_cases hgood : backend (aggregateCellText cell) ≠ [] ∧
        backend (aggregateCellText cell) ≠ errStr
    · rw [if_pos hgood]
      cases hps : descPaths (fun s => s = wP) cell with
      | nil =>
        refine ⟨rfl, fun hA2 => absurd hA2 hA, ?_, ?_⟩
        · intro hbad
          rcases hbad with hb | hb
          · exact absurd hb hgood.1
          · exact absurd hb hgood.2
        · intro p0 rest hps2
          exact absurd hps2 (by simp)
      | cons p0 rest =>
        have hind2 : pathsIndep (p0 :: rest) = true := by rw [← hps]; exact hindep
        rcases pathsIndep_cons p0 rest hind2 with ⟨hdis, hrest⟩
        refine ⟨rfl, fun hA2 => absurd hA2 hA, ?_, ?_⟩
        · intro hbad
          rcases hbad with hb | hb
          · exact absurd hb hgood.1
          · exact absurd hb hgood.2
        · intro p0' rest' hps2 hne htr1 htr2
          have hp0 : p0' = p0 := by
            injection hps2 with h1 h2
            exact h1.symm
          have hrestx : rest' = rest := by
            injection hps2 with h1 h2
            exact h2.symm
          rw [hp0, hrestx]
          have hfold : ∀ (r : Element),
              rest.foldl (fun r pp => modifyAt r (cellPath ++ pp) clearTexts) r
                = (rest.map (fun pp => cellPath ++ pp)).foldl
                    (fun r q => modifyAt r q clearTexts) r := by
            intro r
            rw [List.foldl_map]
          constructor
          · show getAt (rest.foldl
                (fun r pp => modifyAt r (cellPath ++ pp) clearTexts)
                (modifyAt t (cellPath ++ p0)
                  (fun e => updateText e (backend (aggregateCellText cell)))))
                (cellPath ++ p0) = _
            rw [hfold]
            rw [getAt_foldl_modify_indep clearTexts _ _ _ ?hdis2]
            case hdis2 =>
              intro q hq
              rcases List.mem_map.mp hq with ⟨pp, hpp, hq2⟩
              rw [← hq2, samePathStart_append]
              exact hdis pp hpp
            rw [getAt_modifyAt_self]
            rw [getAt_append, hcell]
            rfl
          · intro pp hpp
            show (getAt (rest.foldl
                (fun r pp => modifyAt r (cellPath ++ pp) clearTexts)
                (modifyAt t (cellPath ++ p0)
                  (fun e => updateText e (backend (aggregateCellText cell)))))
                (cellPath ++ pp)).map wtOptTexts = _
            rw [hfold]
            rw [getAt_foldl_modify_self clearTexts _ _ _
              (List.mem_map_of_mem _ hpp) ?hindmap]
            case hindmap =>
              rw [pathsIndep_map_append]
              exact hrest
            rw [getAt_modifyAt_indep _ _ _ _ ?hdis3]
            case hdis3 =>
              rw [samePathStart_append, samePathStart_comm]
              exact hdis pp hpp
            rw [getAt_append, hcell]
            show ((getAt cell pp).map clearTexts).map wtOptTexts = _
            rw [Option.map_map]
            cases getAt cell pp with
            | none => rfl
            | some e =>
              show some (wtOptTexts (clearTexts e)) = _
              rw [wtOptTexts_clearTexts e]
              rfl
    · rw [if_neg hgood]
      refine ⟨rfl, fun hA2 => absurd hA2 hA, fun _ => rfl, ?_⟩
      intro p0 rest hps2 hne htr1 htr2
      exact absurd ⟨htr1, htr2⟩ hgood

/-- Witness for C6: the concrete two-paragraph cell satisfies the hypotheses
and the per-cell contract at the root path. -/
theorem c6_witness :
    (getAt c6cell [] = some c6cell
        ∧ pathsIndep (descPaths (fun s => s = wP) c6cell) = true)
      ∧ (aggregateCellText c6cell = joinSpace (nonEmptyExtracts c6cell)
          ∧ (processCellAt c6backend (c6cell, []) []).2
              = [] ++ (if aggregateCellText c6cell = [] then []
                  else [aggregateCellText c6cell])
          ∧ (aggregateCellText c6cell = [] →
              (processCellAt c6backend (c6cell, []) []).1 = c6cell)
          ∧ (c6backend (aggregateCellText c6cell) = [] ∨
                c6backend (aggregateCellText c6cell) = errStr →
              (processCellAt c6backend (c6cell, []) []).1 = c6cell)
          ∧ (∀ p0 rest, descPaths (fun s => s = wP) c6cell = p0 :: rest →
              aggregateCellText c6cell ≠ [] →
              c6backend (aggregateCellText c6cell) ≠ [] →
              c6backend (aggregateCellText c6cell) ≠ errStr →
              getAt (processCellAt c6backend (c6cell, []) []).1 ([] ++ p0)
                  = (getAt c6cell p0).map
                      (fun e => updateText e (c6backend (aggregateCellText c6cell)))
                ∧ ∀ pp ∈ rest,
                    (getAt (processCellAt c6backend (c6cell, []) []).1
                        ([] ++ pp)).map wtOptTexts
                      = (getAt c6cell pp).map
                          (fun e => (wtOptTexts e).map (fun _ => some ([] : Str))))) :=
  ⟨⟨rfl, by decide⟩,
    c6_process_cell_spec c6backend c6cell [] [] c6cell rfl (by decide)⟩
